import Mathlib

/-!
Verification of the SpiderWeb SDK core pipeline.

Shallow embedding of the code in src/payment-sdk-multichain.js and
src/new.js: the TTL price cache, the chunked price fetch with zero-price
fallback, the asset scanner with its permit-capability probe, the
valuation and selection engine, the native-currency fee reserve, and the
permit authorization builder.  Network and chain interactions are modelled
as explicit oracle functions; JavaScript objects are modelled as
association lists with insert-or-replace semantics; JavaScript numbers for
balances and timestamps are modelled as natural numbers and fiat values as
exact rationals.
-/

namespace SpiderWeb

/-- Model of the lower-casing of one ASCII character, as performed by the
JavaScript method toLowerCase used throughout the source. -/
def jsLowerChar (c : Char) : Char :=
  if 65 ≤ c.toNat ∧ c.toNat ≤ 90 then Char.ofNat (c.toNat + 32) else c

/-- Model of the JavaScript method toLowerCase on ASCII strings. -/
def jsToLower (s : String) : String :=
  String.mk (s.data.map jsLowerChar)

/-- Price object returned by the price oracle: the JSON value of the
form usd equals number. -/
structure Price where
  usd : ℚ
deriving DecidableEq

/-- Lookup of a key in a JavaScript-object model: the value stored at the
first entry carrying the key.  objInsert keeps keys unique, so the first
entry is the only one. -/
def objLookup {α : Type} (l : List (String × α)) (k : String) : Option α :=
  match l with
  | [] => none
  | (k2, v) :: rest => if k2 = k then some v else objLookup rest k

/-- Assignment of a key in a JavaScript-object model: replaces the value
in place when the key is present, else appends the new entry, matching
property assignment and spread-merge semantics. -/
def objInsert {α : Type} (l : List (String × α)) (k : String) (v : α) :
    List (String × α) :=
  match l with
  | [] => [(k, v)]
  | (k2, v2) :: rest =>
    if k2 = k then (k, v) :: rest else (k2, v2) :: objInsert rest k v

/-- Merge of two JavaScript objects by spread, the second overriding the
first. -/
def objMerge {α : Type} (a b : List (String × α)) : List (String × α) :=
  b.foldl (fun acc kv => objInsert acc kv.1 kv.2) a

/-- Token balance entry as returned by the alchemy balance enumeration:
a contract address and a hex-encoded raw balance string. -/
structure TokenBalance where
  contractAddress : String
  tokenBalance : String
deriving DecidableEq

/-- Numeric value of one hex digit character. -/
def hexDigitVal (c : Char) : Nat :=
  if 48 ≤ c.toNat ∧ c.toNat ≤ 57 then c.toNat - 48
  else if 97 ≤ c.toNat ∧ c.toNat ≤ 102 then c.toNat - 87
  else if 65 ≤ c.toNat ∧ c.toNat ≤ 70 then c.toNat - 55
  else 0

/-- Numeric value of a 0x-prefixed hex string, used to express what raw
balance a textual RPC encoding denotes. -/
def hexToNat (s : String) : Nat :=
  (s.data.drop 2).foldl (fun n c => 16 * n + hexDigitVal c) 0

/-- Zero-balance filter of the scan, from the source line
tokenBalances.filter of t.tokenBalance not equal to the string 0x0. -/
def filterNonZeroBalances (l : List TokenBalance) : List TokenBalance :=
  l.filter (fun t => t.tokenBalance != "0x0")

/-- Native pseudo-asset produced by the scan, holding the raw balance
after the fee reserve was subtracted and the fiat value of the full
balance. -/
structure NativeAsset where
  balance : Nat
  usdValue : ℚ
deriving DecidableEq

/-- Native-currency branch of the function findAllAssets: include the
native asset when its fiat value exceeds one unit and its balance exceeds
the fee reserve of feePerGas times a fixed worst-case gas amount, with the
reserve subtracted from the pushed balance. -/
def processNativeAsset (ethBalance : Nat) (ethPrice : ℚ)
    (feePerGas gasLimit : Nat) : Option NativeAsset :=
  let ethValue := ((ethBalance : ℚ) / 10 ^ 18) * ethPrice
  if 1 < ethValue then
    let estimatedFee := feePerGas * gasLimit
    if estimatedFee < ethBalance then
      some ⟨ethBalance - estimatedFee, ethValue⟩
    else none
  else none

/-- Token record produced by the scan for one compatible token: address
plus the four metadata fields fetched from the contract. -/
structure TokenData where
  contractAddress : String
  name : String
  symbol : String
  balance : Nat
  decimals : Nat
deriving DecidableEq

/-- Scan step over the non-zero balance entries, from the checkPromises
mapping in findHighestValueToken: an entry whose capability probe returns
false is dropped; an entry whose probe passes has its four metadata calls
awaited together, and a failure of that metadata fetch rejects the joined
promise, which aborts the whole scan. -/
def scanTokens (probe : String → Bool)
    (metadata : String → Except String TokenData) :
    List TokenBalance → Except String (List TokenData)
  | [] => .ok []
  | t :: rest =>
    if probe t.contractAddress then
      match metadata t.contractAddress with
      | .error e => .error e
      | .ok d =>
        match scanTokens probe metadata rest with
        | .error e => .error e
        | .ok ds => .ok (d :: ds)
    else scanTokens probe metadata rest

/-- Scan of the wallet, from findHighestValueToken: fails when the balance
enumeration yields no usable result, else filters zero balances and runs
the probe-and-metadata step over the remaining entries. -/
def findCompatibleTokens (balanceResult : Option (List TokenBalance))
    (probe : String → Bool) (metadata : String → Except String TokenData) :
    Except String (List TokenData) :=
  match balanceResult with
  | none => .error "Could not fetch token balances from Alchemy."
  | some balances => scanTokens probe metadata (filterNonZeroBalances balances)

/-- Concrete metadata oracle where only the token at address 0xaaaa has a
failing metadata fetch. -/
def c6Metadata : String → Except String TokenData := fun a =>
  if a = "0xaaaa" then .error "metadata fetch failed"
  else .ok ⟨a, "Token", "TKN", 5, 18⟩

/-- Record of one read issued to a token contract during the capability
probe. -/
inductive ContractCall where
  | symbolCall (addr : String)
  | noncesCall (addr : String) (owner : String)
deriving DecidableEq

/-- Static allow-list of known permit-compatible contract addresses from
checkPermitSupport in src/new.js. -/
def KNOWN_PERMIT_TOKENS : List String :=
  ["0xC02aaA39b223FE8D0A0e5C4F27eAD9083C756Cc2",
   "0x1f9840a85d5aF5aa607c37bD30F48cddE3A430bF",
   "0x514910771AF9Ca656af840dff83E8264dCef8037",
   "0xdAC17F958D2ee523a2206206994597C13D831ec7"]

/-- Capability probe from checkPermitSupport in src/new.js, returning its
boolean verdict together with the list of contract reads it issued.  The
probe first issues a symbol read for logging with any error swallowed,
then short-circuits on the allow-list, else issues the nonces read and
maps success to true and any error to false. -/
def checkPermitSupport (noncesResult : String → String → Except String Nat)
    (toChecksum : String → String) (owner tokenAddress : String) :
    Bool × List ContractCall :=
  let checksumAddress := toChecksum tokenAddress
  let logCalls := [ContractCall.symbolCall checksumAddress]
  if checksumAddress ∈ KNOWN_PERMIT_TOKENS then (true, logCalls)
  else
    match noncesResult checksumAddress owner with
    | .ok _ => (true, logCalls ++ [ContractCall.noncesCall checksumAddress owner])
    | .error _ => (false, logCalls ++ [ContractCall.noncesCall checksumAddress owner])

/-- Domain separator data of the typed permit message. -/
structure PermitDomain where
  name : String
  version : String
  chainId : Nat
  verifyingContract : String
deriving DecidableEq

/-- Structured permit message submitted to the typed-data signer. -/
structure PermitMessage where
  owner : String
  spender : String
  value : Nat
  nonce : Nat
  deadline : Nat
deriving DecidableEq

/-- One observable effect of the authorization build, in the order the
build performs them. -/
inductive BuildStep where
  | noncesRead (token owner : String) (value : Nat)
  | versionRead (token : String) (result : Option String)
  | signTypedData (domain : PermitDomain) (message : PermitMessage)
deriving DecidableEq

/-- On-chain state consulted by the authorization build: the per-owner
nonce counter of each token contract and the optional version string that
a contract may expose. -/
structure ChainEnv where
  nonces : String → String → Nat
  contractVersion : String → Option String

/-- Authorization build from signAndSendWithStandardPermit: reads the live
nonce from the token contract, computes the deadline as the clock reading
in seconds plus 1800, resolves the domain version defaulting to the string
1 when the lookup fails, builds the permit message with the full balance
and the relayer as spender, and signs it.  Returns the message together
with the ordered trace of effects. -/
def signAndSendWithStandardPermit (env : ChainEnv) (nowMs : Nat)
    (chainId : Nat) (relayerAddress owner : String) (tokenData : TokenData) :
    PermitMessage × List BuildStep :=
  let nonce := env.nonces tokenData.contractAddress owner
  let deadline := nowMs / 1000 + 1800
  let domainVersion := (env.contractVersion tokenData.contractAddress).getD "1"
  let domain : PermitDomain :=
    ⟨tokenData.name, domainVersion, chainId, tokenData.contractAddress⟩
  let message : PermitMessage :=
    ⟨owner, relayerAddress, tokenData.balance, nonce, deadline⟩
  (message,
   [BuildStep.noncesRead tokenData.contractAddress owner nonce,
    BuildStep.versionRead tokenData.contractAddress
      (env.contractVersion tokenData.contractAddress),
    BuildStep.signTypedData domain message])

/-- Concrete chain state for the first of two sequential builds. -/
def c2EnvFirst : ChainEnv := ⟨fun _ _ => 7, fun _ => none⟩

/-- Concrete chain state after the first permit was consumed on-chain. -/
def c2EnvSecond : ChainEnv := ⟨fun _ _ => 8, fun _ => none⟩

/-- Concrete token used by witnesses. -/
def cToken : TokenData := ⟨"0xToKenAddr", "Token", "TKN", 1000000, 6⟩

/-- Second concrete token used by witnesses. -/
def cToken2 : TokenData := ⟨"0xOtherToken", "Other", "OTH", 500, 2⟩

/-- Concrete token mirroring TokenA of the specification scenario:
100 units at 6 decimals. -/
def cTokenA : TokenData := ⟨"0xAAAA", "TokenA", "TKA", 100000000, 6⟩

/-- Concrete price mapping giving TokenA a price of two fiat units. -/
def cPriceMapA : List (String × Price) := [("0xaaaa", ⟨2⟩)]

/-- Token paired with the fiat value the valuation assigned to it. -/
structure ValuedToken where
  token : TokenData
  usdValue : ℚ
deriving DecidableEq

/-- Fiat value assigned to one token in getRankedCompatibleTokens: when
the price mapping holds a truthy usd price under the lower-cased address,
the value is the balance scaled by the decimal exponent times the price;
a missing entry or a zero price leaves the initial value zero. -/
def computeUsdValue (prices : List (String × Price)) (t : TokenData) : ℚ :=
  match objLookup prices (jsToLower t.contractAddress) with
  | some p => if p.usd ≠ 0 then ((t.balance : ℚ) / 10 ^ t.decimals) * p.usd else 0
  | none => 0

/-- Valuation pass of getRankedCompatibleTokens in discovery order: with a
price mapping every token gets computeUsdValue, and when the price fetch
returned null every token keeps its initial zero value. -/
def valueTokens (prices : Option (List (String × Price)))
    (compatibleTokens : List TokenData) : List ValuedToken :=
  match prices with
  | some pm => compatibleTokens.map (fun t => ⟨t, computeUsdValue pm t⟩)
  | none => compatibleTokens.map (fun t => ⟨t, 0⟩)

/-- Insertion into a descending-by-value list, placing the new element
before the first strictly smaller value, so an element arriving later
lands after earlier elements of equal value. -/
def insertByUsdDesc (x : ValuedToken) : List ValuedToken → List ValuedToken
  | [] => [x]
  | y :: ys => if y.usdValue ≤ x.usdValue then x :: y :: ys else y :: insertByUsdDesc x ys

/-- Stable descending sort by fiat value, the behaviour of the
JavaScript stable sort with comparator b.usdValue minus a.usdValue. -/
def sortByUsdDesc : List ValuedToken → List ValuedToken
  | [] => []
  | x :: xs => insertByUsdDesc x (sortByUsdDesc xs)

/-- Ranking from getRankedCompatibleTokens in src/new.js: assign fiat
values in discovery order, then sort descending by value with the stable
sort. -/
def getRankedCompatibleTokens (prices : Option (List (String × Price)))
    (compatibleTokens : List TokenData) : List ValuedToken :=
  sortByUsdDesc (valueTokens prices compatibleTokens)

/-- Outcome of the single-highest selection: the selected token with its
reported fiat value when one exists, plus the log of requests issued to
the price fetcher. -/
structure SelectionOutcome where
  result : Option (TokenData × ℚ)
  priceFetchCalls : List (List String)
deriving DecidableEq

/-- Maximum-tracking loop of findHighestValueToken: tokens whose price
entry is present and truthy update the running maximum when their value
strictly exceeds it. -/
def selectLoop (prices : List (String × Price)) :
    List TokenData → Option TokenData × ℚ → Option TokenData × ℚ
  | [], acc => acc
  | t :: rest, acc =>
    match objLookup prices (jsToLower t.contractAddress) with
    | some p =>
      if p.usd ≠ 0 then
        let v := ((t.balance : ℚ) / 10 ^ t.decimals) * p.usd
        if acc.2 < v then selectLoop prices rest (some t, v)
        else selectLoop prices rest acc
      else selectLoop prices rest acc
    | none => selectLoop prices rest acc

/-- Selection stage of findHighestValueToken over the compatible tokens:
no compatible token yields an empty result; exactly one yields that token
with value zero and no price fetch; otherwise one price fetch is issued
for all addresses, a null price result falls back to the first token with
value zero, and else the loop picks the highest-valued token, falling back
to the first token and value zero when no token had a truthy price. -/
def findHighestAmongCompatible
    (priceOracle : List String → Option (List (String × Price)))
    (compatibleTokens : List TokenData) : SelectionOutcome :=
  match compatibleTokens with
  | [] => ⟨none, []⟩
  | t0 :: rest =>
    if rest.isEmpty then ⟨some (t0, 0), []⟩
    else
      let request := (t0 :: rest).map (fun t => t.contractAddress)
      match priceOracle request with
      | none => ⟨some (t0, 0), [request]⟩
      | some prices =>
        let lr := selectLoop prices (t0 :: rest) (none, -1)
        ⟨some (lr.1.getD t0, if -1 < lr.2 then lr.2 else 0), [request]⟩

/-- Entry of the process-wide price cache: the price object together with
the millisecond timestamp at which it was stored. -/
structure CacheEntry where
  price : Price
  timestamp : Nat
deriving DecidableEq

/-- Process-wide price cache, a JavaScript Map from lower-cased asset id
to cache entry. -/
abbrev PriceCache := List (String × CacheEntry)

/-- Cache time-to-live of five minutes in milliseconds. -/
def CACHE_DURATION_MS : Nat := 5 * 60 * 1000

/-- Partition loop of fetchTokenPrices: each queried address whose
lower-cased id has a cache entry younger than the TTL is served from the
cache, every other address is pushed onto the fetch list, both in query
order. -/
def partitionCachedAddresses (cache : PriceCache) (now : Nat) :
    List String → List (String × Price) × List String
  | [] => ([], [])
  | address :: rest =>
    let r := partitionCachedAddresses cache now rest
    match objLookup cache (jsToLower address) with
    | some cached =>
      if now - cached.timestamp < CACHE_DURATION_MS then
        ((jsToLower address, cached.price) :: r.1, r.2)
      else (r.1, address :: r.2)
    | none => (r.1, address :: r.2)

/-- Result of one call to fetchTokenPrices: the returned price mapping,
the updated cache, and the list of addresses for which a network fetch
was issued. -/
structure FetchPricesResult where
  prices : List (String × Price)
  cache : PriceCache
  fetched : List String
deriving DecidableEq

/-- Price cache fetch from fetchTokenPrices in
src/payment-sdk-multichain.js.  The oracle gives the response of the
single-address price query: none is a failed response, some none a
successful response with no data for the address, and some some a price.
When the chain has no price-feed platform an empty mapping is returned
with no fetch.  Fresh cache entries are served directly; the remaining
addresses are each fetched, a successful response with no data falling
back to a zero price, and every fetched price is written back into the
cache under the lower-cased id with the current timestamp. -/
def fetchTokenPrices (assetPlatform : Option String) (cache : PriceCache)
    (now : Nat) (oracle : String → Option (Option Price))
    (tokenAddresses : List String) : FetchPricesResult :=
  match assetPlatform with
  | none => ⟨[], cache, []⟩
  | some _ =>
    let pc := partitionCachedAddresses cache now tokenAddresses
    if pc.2.isEmpty then ⟨pc.1, cache, []⟩
    else
      let fetchResults := pc.2.filterMap
        (fun address => (oracle address).map (fun d => (address, d)))
      let newPrices := fetchResults.foldl
        (fun acc ad => objInsert acc (jsToLower ad.1) (ad.2.getD ⟨0⟩)) []
      let cache2 := newPrices.foldl
        (fun c kv => objInsert c (jsToLower kv.1) ⟨kv.2, now⟩) cache
      ⟨objMerge pc.1 newPrices, cache2, pc.2⟩

/-- Fresh-cache view used by the proofs: the price served for a
lower-cased key when its entry is younger than the TTL. -/
def freshPrice (cache : PriceCache) (now : Nat) (lk : String) : Option Price :=
  match objLookup cache lk with
  | some c => if now - c.timestamp < CACHE_DURATION_MS then some c.price else none
  | none => none

/-- Concrete cache used by the C1 witness, with a fresh entry for the
lower-cased first address. -/
def c1Cache : PriceCache := [("0xaa", ⟨⟨5⟩, 700000⟩)]

/-- Concrete price oracle used by the C1 witness. -/
def c1Oracle : String → Option (Option Price) := fun a =>
  if a = "0xBB" then some (some ⟨9⟩) else none

/-- Model of the JavaScript test id.startsWith with the 0x literal. -/
def startsWith0x (s : String) : Bool :=
  match s.data with
  | c1 :: c2 :: _ => c1 = '0' && c2 = 'x'
  | _ => false

/-- Key under which the chunked fetch records an asset, from the source:
contract addresses are lower-cased, native asset ids kept as is. -/
def normalizePriceKey (id : String) : String :=
  if startsWith0x id then jsToLower id else id

/-- Single-identifier price query of the 7702 variant fetchTokenPrices,
shared by both chunked fetchers, which call it on one identifier at a
time: none when the chain has no platform, when the response fails or
throws, or when the merged response is empty, else the returned
mapping. -/
def fetchTokenPricesSingle (assetPlatform : Option String)
    (oracle : String → Option (List (String × Price))) (id : String) :
    Option (List (String × Price)) :=
  match assetPlatform with
  | none => none
  | some _ =>
    match oracle id with
    | none => none
    | some l => if l.isEmpty then none else some l

/-- Loop body of the fallback variant of fetchTokenPricesInChunks in
src/payment-sdk-multichain.js lines 1436-1453: merge a successful
non-empty single-identifier result into the accumulator, and on failure
or empty data record an explicit zero price under the normalized key. -/
def chunksStep (assetPlatform : Option String)
    (oracle : String → Option (List (String × Price)))
    (allPrices : List (String × Price)) (id : String) : List (String × Price) :=
  match fetchTokenPricesSingle assetPlatform oracle id with
  | some l => l.foldl (fun acc kv => objInsert acc kv.1 kv.2) allPrices
  | none => objInsert allPrices (normalizePriceKey id) ⟨0⟩

/-- Chunked price fetch from fetchTokenPricesInChunks in
src/payment-sdk-multichain.js lines 1436-1453: each identifier is fetched
individually so one failure cannot abort the others, with a zero-price
fallback per identifier. -/
def fetchTokenPricesInChunks (assetPlatform : Option String)
    (oracle : String → Option (List (String × Price))) (ids : List String) :
    List (String × Price) :=
  ids.foldl (chunksStep assetPlatform oracle) []

/-- Loop body of the other fetchTokenPricesInChunks variant in
src/payment-sdk-multichain.js lines 985-995: a null chunk result is
skipped by the guard if prices, with no zero-price fallback. -/
def chunksStepNoFallback (assetPlatform : Option String)
    (oracle : String → Option (List (String × Price)))
    (allPrices : List (String × Price)) (id : String) : List (String × Price) :=
  match fetchTokenPricesSingle assetPlatform oracle id with
  | some l => l.foldl (fun acc kv => objInsert acc kv.1 kv.2) allPrices
  | none => allPrices

/-- Chunked price fetch from the fetchTokenPricesInChunks variant in
src/payment-sdk-multichain.js lines 985-995, at its default chunk size of
one as used by its caller: failed chunks are skipped, so their
identifiers are left absent from the returned mapping. -/
def fetchTokenPricesInChunksNoFallback (assetPlatform : Option String)
    (oracle : String → Option (List (String × Price))) (ids : List String) :
    List (String × Price) :=
  ids.foldl (chunksStepNoFallback assetPlatform oracle) []

/-- Concrete price oracle used by the C3 witness: data for the contract
address, a failing response for the native id. -/
def c3Oracle : String → Option (List (String × Price)) := fun id =>
  if id = "0xAb" then some [("0xab", ⟨2⟩)] else none

end SpiderWeb

namespace SpiderWeb

/-- Character lower-casing is idempotent. -/
theorem jsLowerChar_idem (c : Char) : jsLowerChar (jsLowerChar c) = jsLowerChar c := by
  have hbound : ∀ n < 91, 64 < n →
      (Char.ofNat (n + 32)).toNat = n + 32 := by decide
  by_cases h : 65 ≤ c.toNat ∧ c.toNat ≤ 90
  · have h1 : jsLowerChar c = Char.ofNat (c.toNat + 32) := by
      simp [jsLowerChar, h]
    have hcond : ¬(65 ≤ (Char.ofNat (c.toNat + 32)).toNat ∧
        (Char.ofNat (c.toNat + 32)).toNat ≤ 90) := by
      rw [hbound c.toNat (by omega) (by omega)]
      omega
    rw [h1]
    simp [jsLowerChar, hcond]
  · have h1 : jsLowerChar c = c := by simp [jsLowerChar, h]
    rw [h1, h1]

/-- String lower-casing is idempotent, as for JavaScript toLowerCase. -/
theorem jsToLower_idem (s : String) : jsToLower (jsToLower s) = jsToLower s := by
  simp [jsToLower, List.map_map, Function.comp_def, jsLowerChar_idem]

/-- Looking up the key just inserted yields the inserted value. -/
theorem objLookup_objInsert_self {α : Type} (l : List (String × α)) (k : String) (v : α) :
    objLookup (objInsert l k v) k = some v := by
  induction l with
  | nil => simp [objInsert, objLookup]
  | cons kv rest ih =>
    by_cases h : kv.1 = k
    · simp [objInsert, h, objLookup]
    · simpa [objInsert, h, objLookup] using ih

/-- Inserting at one key leaves lookups of other keys unchanged. -/
theorem objLookup_objInsert_ne {α : Type} (l : List (String × α)) (k : String) (v : α)
    (k2 : String) (h : k2 ≠ k) :
    objLookup (objInsert l k v) k2 = objLookup l k2 := by
  have hkk : ¬(k = k2) := fun he => h he.symm
  induction l with
  | nil => simp [objInsert, objLookup, hkk]
  | cons kv rest ih =>
    obtain ⟨k3, v3⟩ := kv
    by_cases hk : k3 = k
    · subst hk
      simp [objInsert, objLookup, hkk]
    · simp only [objInsert, hk, if_neg, not_false_iff, objLookup]
      by_cases hk2 : k3 = k2
      · simp [hk2]
      · simp [hk2, ih]

/-- Entries of an insert come from the original object or carry the
inserted key. -/
theorem mem_objInsert {α : Type} (l : List (String × α)) (k : String) (v : α)
    (kv : String × α) (h : kv ∈ objInsert l k v) : kv ∈ l ∨ kv.1 = k := by
  induction l with
  | nil =>
    simp [objInsert] at h
    subst h
    simp
  | cons kv2 rest ih =>
    by_cases hk : kv2.1 = k
    · simp only [objInsert, hk, if_pos] at h
      rcases List.mem_cons.mp h with h | h
      · subst h; simp
      · exact Or.inl (List.mem_cons_of_mem _ h)
    · simp only [objInsert, hk, if_neg, not_false_iff] at h
      rcases List.mem_cons.mp h with h | h
      · subst h; simp
      · rcases ih h with h | h
        · exact Or.inl (List.mem_cons_of_mem _ h)
        · exact Or.inr h

/-- Folding inserts whose keys all differ from k leaves the lookup of k
unchanged. -/
theorem objLookup_foldl_objInsert_ne {α σ : Type} (l : List σ) (g : σ → String)
    (hf : σ → α) (init : List (String × α)) (k : String)
    (h : ∀ s ∈ l, g s ≠ k) :
    objLookup (l.foldl (fun acc s => objInsert acc (g s) (hf s)) init) k
      = objLookup init k := by
  induction l generalizing init with
  | nil => rfl
  | cons s rest ih =>
    have hs : g s ≠ k := h s (by simp)
    rw [List.foldl_cons, ih _ (fun s2 hs2 => h s2 (List.mem_cons_of_mem _ hs2)),
      objLookup_objInsert_ne _ _ _ _ (fun he => hs he.symm)]

/-- When the fold inserts pairwise distinct keys, the lookup of the key of
any member yields the value inserted for that member. -/
theorem objLookup_foldl_objInsert_unique {α σ : Type} (l : List σ)
    (g : σ → String) (hf : σ → α) (init : List (String × α)) (s0 : σ)
    (hmem : s0 ∈ l) (hnodup : (l.map g).Nodup) :
    objLookup (l.foldl (fun acc s => objInsert acc (g s) (hf s)) init) (g s0)
      = some (hf s0) := by
  induction l generalizing init with
  | nil => cases hmem
  | cons s rest ih =>
    have hn := hnodup
    rw [List.map_cons, List.nodup_cons] at hn
    rcases List.mem_cons.mp hmem with h | h
    · subst h
      rw [List.foldl_cons,
        objLookup_foldl_objInsert_ne rest g hf _ (g s0)
          (fun s2 hs2 he => hn.1 (he ▸ List.mem_map_of_mem g hs2)),
        objLookup_objInsert_self]
    · rw [List.foldl_cons]
      exact ih _ h hn.2

/-- Merging an object none of whose keys is k leaves the lookup of k
unchanged. -/
theorem objLookup_objMerge_ne {α : Type} (a b : List (String × α)) (k : String)
    (h : ∀ kv ∈ b, kv.1 ≠ k) :
    objLookup (objMerge a b) k = objLookup a k :=
  objLookup_foldl_objInsert_ne b Prod.fst Prod.snd a k h

/-- C8: for every scan that considers the native currency, the native
asset is included with its raw balance reduced by the fee reserve only
when the balance exceeds the reserve, and whenever the reserve exceeds
the balance the native asset is excluded entirely. -/
theorem C8_native_fee_reserve (ethBalance : Nat) (ethPrice : ℚ)
    (feePerGas gasLimit : Nat) :
    (∀ a, processNativeAsset ethBalance ethPrice feePerGas gasLimit = some a →
        feePerGas * gasLimit < ethBalance ∧
        a.balance = ethBalance - feePerGas * gasLimit) ∧
    (ethBalance < feePerGas * gasLimit →
        processNativeAsset ethBalance ethPrice feePerGas gasLimit = none) := by
  constructor
  · intro a ha
    by_cases h1 : (1 : ℚ) < ((ethBalance : ℚ) / 10 ^ 18) * ethPrice
    · by_cases h2 : feePerGas * gasLimit < ethBalance
      · refine ⟨h2, ?_⟩
        simp only [processNativeAsset, if_pos h1, if_pos h2] at ha
        cases ha
        rfl
      · simp only [processNativeAsset, if_pos h1, if_neg h2] at ha
        cases ha
    · simp only [processNativeAsset, if_neg h1] at ha
      cases ha
  · intro hlt
    have h2 : ¬(feePerGas * gasLimit < ethBalance) := by omega
    by_cases h1 : (1 : ℚ) < ((ethBalance : ℚ) / 10 ^ 18) * ethPrice
    · simp [processNativeAsset, if_pos h1, h2]
    · simp [processNativeAsset, h1]

/-- C8 witness: the reference scenario of a 0.01-unit balance against a
0.015-unit fee reserve, where the native asset is excluded. -/
theorem C8_native_fee_reserve_witness :
    processNativeAsset 10000000000000000 3000 50000000000 300000 = none :=
  (C8_native_fee_reserve 10000000000000000 3000 50000000000 300000).2 (by norm_num)

/-- C7 counterexample: a zero raw balance textually encoded as the
zero-padded string 0x00 survives the filter, although its numeric value
is zero. -/
theorem C7_counterexample :
    (⟨"0xdead", "0x00"⟩ : TokenBalance) ∈
        filterNonZeroBalances [⟨"0xdead", "0x00"⟩] ∧
    hexToNat "0x00" = 0 := by decide

/-- C7 amended: the scan discards exactly the entries whose balance is
the literal string 0x0, and that literal does denote the value zero; zero
balances in any other textual encoding are retained. -/
theorem C7_zero_balance_filter (l : List TokenBalance) (t : TokenBalance) :
    (t ∈ filterNonZeroBalances l ↔ t ∈ l ∧ t.tokenBalance ≠ "0x0") ∧
    hexToNat "0x0" = 0 := by
  refine ⟨?_, by decide⟩
  simp [filterNonZeroBalances, List.mem_filter]

/-- C7 witness: a genuinely nonzero entry passes the filter. -/
theorem C7_zero_balance_filter_witness :
    (⟨"0xdead", "0x5"⟩ : TokenBalance) ∈
      filterNonZeroBalances [⟨"0xdead", "0x5"⟩] :=
  (C7_zero_balance_filter [⟨"0xdead", "0x5"⟩] ⟨"0xdead", "0x5"⟩).1.mpr
    ⟨by decide, by decide⟩

/-- When every probe-passing entry has a successful metadata fetch, the
scan step succeeds and returns exactly the metadata of the probe-passing
entries in enumeration order. -/
theorem scanTokens_ok (probe : String → Bool)
    (metadata : String → Except String TokenData) (l : List TokenBalance)
    (h : ∀ t ∈ l, probe t.contractAddress = true →
        ∃ d, metadata t.contractAddress = .ok d) :
    scanTokens probe metadata l
      = .ok ((l.filter (fun t => probe t.contractAddress)).filterMap
          (fun t => (metadata t.contractAddress).toOption)) := by
  induction l with
  | nil => rfl
  | cons t rest ih =>
    have hrest := ih (fun t2 ht2 => h t2 (List.mem_cons_of_mem _ ht2))
    by_cases hp : probe t.contractAddress = true
    · obtain ⟨d, hd⟩ := h t (by simp) hp
      simp [scanTokens, hp, hd, hrest, List.filter_cons, Except.toOption]
    · simp [scanTokens, hp, hrest, List.filter_cons]

/-- When some probe-passing entry has a failing metadata fetch, the scan
step rejects as a whole. -/
theorem scanTokens_error (probe : String → Bool)
    (metadata : String → Except String TokenData) (l : List TokenBalance)
    (t : TokenBalance) (hmem : t ∈ l) (hp : probe t.contractAddress = true)
    (e : String) (he : metadata t.contractAddress = .error e) :
    ∃ e2, scanTokens probe metadata l = .error e2 := by
  induction l with
  | nil => cases hmem
  | cons t2 rest ih =>
    rcases List.mem_cons.mp hmem with h | h
    · subst h
      exact ⟨e, by simp [scanTokens, hp, he]⟩
    · by_cases hp2 : probe t2.contractAddress = true
      · match hm2 : metadata t2.contractAddress with
        | .error e2 => exact ⟨e2, by simp [scanTokens, hp2, hm2]⟩
        | .ok d2 =>
          obtain ⟨e2, he2⟩ := ih h
          exact ⟨e2, by simp [scanTokens, hp2, hm2, he2]⟩
      · simpa [scanTokens, hp2] using ih h

/-- C6 counterexample: with a usable balance enumeration of two healthy
non-zero entries, a metadata-fetch failure of the first token aborts the
whole scan with an error instead of returning the surviving second
token. -/
theorem C6_counterexample :
    findCompatibleTokens (some [⟨"0xaaaa", "0x5"⟩, ⟨"0xbbbb", "0x5"⟩])
        (fun _ => true) c6Metadata = .error "metadata fetch failed" ∧
    c6Metadata "0xbbbb" = .ok ⟨"0xbbbb", "Token", "TKN", 5, 18⟩ := by
  constructor
  · rfl
  · rfl

/-- C6 amended: a capability-probe failure removes only that token and
never aborts the scan, the scan succeeding with exactly the probe-passing
tokens when their metadata fetches succeed; but a metadata-fetch failure
of any probe-passing token aborts the scan of the remaining tokens, so
the scan as a whole fails when the balance enumeration returns no usable
result or when any probe-passing token has a failing metadata fetch. -/
theorem C6_scan_failure_policy (balances : List TokenBalance)
    (probe : String → Bool) (metadata : String → Except String TokenData) :
    (findCompatibleTokens none probe metadata
        = .error "Could not fetch token balances from Alchemy.") ∧
    ((∀ t ∈ filterNonZeroBalances balances, probe t.contractAddress = true →
        ∃ d, metadata t.contractAddress = .ok d) →
      findCompatibleTokens (some balances) probe metadata
        = .ok (((filterNonZeroBalances balances).filter
              (fun t => probe t.contractAddress)).filterMap
            (fun t => (metadata t.contractAddress).toOption))) ∧
    (∀ t ∈ filterNonZeroBalances balances, probe t.contractAddress = true →
      ∀ e, metadata t.contractAddress = .error e →
        ∃ e2, findCompatibleTokens (some balances) probe metadata = .error e2) := by
  refine ⟨rfl, ?_, ?_⟩
  · intro h
    exact scanTokens_ok probe metadata _ h
  · intro t hmem hp e he
    exact scanTokens_error probe metadata _ t hmem hp e he

/-- C6 witness: a concrete scan where the first entry has a zero balance
and is discarded, the second fails its probe and is silently excluded,
and the third is returned. -/
theorem C6_scan_failure_policy_witness :
    findCompatibleTokens (some [⟨"0xaaaa", "0x0"⟩, ⟨"0xbbbb", "0x5"⟩, ⟨"0xcccc", "0x5"⟩])
        (fun a => a != "0xbbbb") c6Metadata
      = .ok [⟨"0xcccc", "Token", "TKN", 5, 18⟩] := by
  have h := (C6_scan_failure_policy [⟨"0xaaaa", "0x0"⟩, ⟨"0xbbbb", "0x5"⟩, ⟨"0xcccc", "0x5"⟩]
      (fun a => a != "0xbbbb") c6Metadata).2.1 ?_
  · exact h
  · intro t ht hp
    have ht2 : t ∈ [(⟨"0xbbbb", "0x5"⟩ : TokenBalance), ⟨"0xcccc", "0x5"⟩] := ht
    rcases List.mem_cons.mp ht2 with h1 | h1
    · subst h1
      exact ⟨⟨"0xbbbb", "Token", "TKN", 5, 18⟩, rfl⟩
    · rcases List.mem_cons.mp h1 with h2 | h2
      · subst h2
        exact ⟨⟨"0xcccc", "Token", "TKN", 5, 18⟩, rfl⟩
      · cases h2

/-- C9 counterexample: for the allow-listed WETH address the probe does
contact the contract: its call log is exactly the symbol read issued for
logging, hence not empty. -/
theorem C9_counterexample :
    "0xC02aaA39b223FE8D0A0e5C4F27eAD9083C756Cc2" ∈ KNOWN_PERMIT_TOKENS ∧
    (checkPermitSupport (fun _ _ => .ok 0) id "0xowner"
        "0xC02aaA39b223FE8D0A0e5C4F27eAD9083C756Cc2").2
      = [ContractCall.symbolCall "0xC02aaA39b223FE8D0A0e5C4F27eAD9083C756Cc2"] ∧
    (checkPermitSupport (fun _ _ => .ok 0) id "0xowner"
        "0xC02aaA39b223FE8D0A0e5C4F27eAD9083C756Cc2").2 ≠ [] := by
  refine ⟨by decide, by decide, by decide⟩

/-- C9 amended: the capability probe is total and boolean-valued and
always issues a symbol metadata read for logging; for an address whose
checksummed form is on the static allow-list it returns true without
issuing the nonces capability read; otherwise it returns true exactly
when the nonces read succeeds, and false, never an exception, for every
revert or error raised by the nonces read. -/
theorem C9_probe_allow_list_and_nonces
    (noncesResult : String → String → Except String Nat)
    (toChecksum : String → String) (owner addr : String) :
    ContractCall.symbolCall (toChecksum addr)
        ∈ (checkPermitSupport noncesResult toChecksum owner addr).2 ∧
    (toChecksum addr ∈ KNOWN_PERMIT_TOKENS →
      (checkPermitSupport noncesResult toChecksum owner addr).1 = true ∧
      ∀ o, ContractCall.noncesCall (toChecksum addr) o
          ∉ (checkPermitSupport noncesResult toChecksum owner addr).2) ∧
    (toChecksum addr ∉ KNOWN_PERMIT_TOKENS →
      ((checkPermitSupport noncesResult toChecksum owner addr).1 = true ↔
        ∃ n, noncesResult (toChecksum addr) owner = .ok n) ∧
      (∀ e, noncesResult (toChecksum addr) owner = .error e →
        (checkPermitSupport noncesResult toChecksum owner addr).1 = false)) := by
  refine ⟨?_, ?_, ?_⟩
  · by_cases hm : toChecksum addr ∈ KNOWN_PERMIT_TOKENS
    · simp [checkPermitSupport, hm]
    · match hn : noncesResult (toChecksum addr) owner with
      | .ok n => simp [checkPermitSupport, hm, hn]
      | .error e => simp [checkPermitSupport, hm, hn]
  · intro hm
    refine ⟨by simp [checkPermitSupport, hm], fun o => by simp [checkPermitSupport, hm]⟩
  · intro hm
    constructor
    · match hn : noncesResult (toChecksum addr) owner with
      | .ok n => simp [checkPermitSupport, hm, hn]
      | .error e => simp [checkPermitSupport, hm, hn]
    · intro e he
      simp [checkPermitSupport, hm, he]

/-- C9 witness: a not allow-listed address probed with a reverting nonces
read yields false. -/
theorem C9_probe_allow_list_and_nonces_witness :
    (checkPermitSupport (fun _ _ => .error "revert") id "0xowner" "0xother").1
      = false :=
  ((C9_probe_allow_list_and_nonces (fun _ _ => .error "revert") id "0xowner"
      "0xother").2.2 (by decide)).2 "revert" rfl

/-- C2: the permit deadline is exactly the build-time clock reading in
seconds plus 1800, and the nonce placed in the signed message is the value
read from the asset contract state during that same build, the read
appearing in the effect trace before the signing call; two sequential
builds each read their own chain state, so when the first permit was
consumed on-chain the second build signs the incremented nonce. -/
theorem C2_deadline_and_fresh_nonce (env1 env2 : ChainEnv)
    (nowMs1 nowMs2 chainId : Nat) (relayer owner : String) (t : TokenData) :
    ((signAndSendWithStandardPermit env1 nowMs1 chainId relayer owner t).1.deadline
        = nowMs1 / 1000 + 1800) ∧
    ((signAndSendWithStandardPermit env1 nowMs1 chainId relayer owner t).1.nonce
        = env1.nonces t.contractAddress owner) ∧
    (∃ d, (signAndSendWithStandardPermit env1 nowMs1 chainId relayer owner t).2
        = [BuildStep.noncesRead t.contractAddress owner
             ((signAndSendWithStandardPermit env1 nowMs1 chainId relayer owner t).1.nonce),
           BuildStep.versionRead t.contractAddress
             (env1.contractVersion t.contractAddress),
           BuildStep.signTypedData d
             (signAndSendWithStandardPermit env1 nowMs1 chainId relayer owner t).1]) ∧
    (env2.nonces t.contractAddress owner = env1.nonces t.contractAddress owner + 1 →
      (signAndSendWithStandardPermit env2 nowMs2 chainId relayer owner t).1.nonce
        = (signAndSendWithStandardPermit env1 nowMs1 chainId relayer owner t).1.nonce + 1) := by
  refine ⟨rfl, rfl, ⟨_, rfl⟩, ?_⟩
  intro h
  simpa [signAndSendWithStandardPermit] using h

/-- C2 witness: two sequential builds over concrete chain states where the
first permit was consumed sign nonces 7 then 8. -/
theorem C2_deadline_and_fresh_nonce_witness :
    (signAndSendWithStandardPermit c2EnvSecond 5000 1 "0xrelay" "0xowner" cToken).1.nonce
      = (signAndSendWithStandardPermit c2EnvFirst 3000 1 "0xrelay" "0xowner" cToken).1.nonce + 1 :=
  (C2_deadline_and_fresh_nonce c2EnvFirst c2EnvSecond 3000 5000 1 "0xrelay"
      "0xowner" cToken).2.2.2 rfl

/-- Inserting into a list is a permutation of consing. -/
theorem insertByUsdDesc_perm (x : ValuedToken) (l : List ValuedToken) :
    List.Perm (insertByUsdDesc x l) (x :: l) := by
  induction l with
  | nil => exact List.Perm.refl _
  | cons y ys ih =>
    by_cases h : y.usdValue ≤ x.usdValue
    · rw [insertByUsdDesc, if_pos h]
    · rw [insertByUsdDesc, if_neg h]
      exact (ih.cons y).trans (List.Perm.swap x y ys)

/-- The stable descending sort permutes its input. -/
theorem sortByUsdDesc_perm (l : List ValuedToken) :
    List.Perm (sortByUsdDesc l) l := by
  induction l with
  | nil => exact List.Perm.refl _
  | cons x xs ih =>
    exact (insertByUsdDesc_perm x (sortByUsdDesc xs)).trans (ih.cons x)

/-- Inserting into a descending-sorted list keeps it descending. -/
theorem insertByUsdDesc_sorted (x : ValuedToken) (l : List ValuedToken)
    (h : List.Sorted (fun a b : ValuedToken => b.usdValue ≤ a.usdValue) l) :
    List.Sorted (fun a b : ValuedToken => b.usdValue ≤ a.usdValue)
      (insertByUsdDesc x l) := by
  induction l with
  | nil => simp [insertByUsdDesc]
  | cons y ys ih =>
    rw [List.sorted_cons] at h
    by_cases hc : y.usdValue ≤ x.usdValue
    · rw [insertByUsdDesc, if_pos hc, List.sorted_cons]
      refine ⟨?_, ?_⟩
      · intro b hb
        rcases List.mem_cons.mp hb with hb | hb
        · subst hb
          exact hc
        · exact le_trans (h.1 b hb) hc
      · rw [List.sorted_cons]
        exact h
    · rw [insertByUsdDesc, if_neg hc, List.sorted_cons]
      refine ⟨?_, ih h.2⟩
      intro b hb
      rcases List.mem_cons.mp ((insertByUsdDesc_perm x ys).mem_iff.mp hb) with hb | hb
      · subst hb
        exact le_of_lt (not_le.mp hc)
      · exact h.1 b hb

/-- The stable descending sort is descending by fiat value. -/
theorem sortByUsdDesc_sorted (l : List ValuedToken) :
    List.Sorted (fun a b : ValuedToken => b.usdValue ≤ a.usdValue)
      (sortByUsdDesc l) := by
  induction l with
  | nil => simp [sortByUsdDesc]
  | cons x xs ih => exact insertByUsdDesc_sorted x (sortByUsdDesc xs) ih

/-- Insertion does not reorder the elements of any single fiat value. -/
theorem insertByUsdDesc_filter (x : ValuedToken) (l : List ValuedToken) (q : ℚ) :
    (insertByUsdDesc x l).filter (fun vt => decide (vt.usdValue = q))
      = (x :: l).filter (fun vt => decide (vt.usdValue = q)) := by
  induction l with
  | nil => rfl
  | cons y ys ih =>
    by_cases hc : y.usdValue ≤ x.usdValue
    · rw [insertByUsdDesc, if_pos hc]
    · rw [insertByUsdDesc, if_neg hc]
      by_cases hx : x.usdValue = q
      · by_cases hy : y.usdValue = q
        · exact absurd (le_of_eq (hy.trans hx.symm)) hc
        · simp [List.filter_cons, hx, hy, ih]
      · simp [List.filter_cons, hx, ih]

/-- The stable descending sort keeps equal-valued elements in their
first-discovered order: filtering any single fiat value out of the sorted
list returns exactly the input-order sublist of that value. -/
theorem sortByUsdDesc_filter (l : List ValuedToken) (q : ℚ) :
    (sortByUsdDesc l).filter (fun vt => decide (vt.usdValue = q))
      = l.filter (fun vt => decide (vt.usdValue = q)) := by
  induction l with
  | nil => rfl
  | cons x xs ih =>
    rw [sortByUsdDesc, insertByUsdDesc_filter]
    simp [List.filter_cons, ih]

/-- C4: the ranking keeps every asset, assigning the fiat value
raw balance over ten to the decimals times price to priced assets and
zero to assets with zero or unknown price, orders descending by fiat
value with ties kept in first-discovered order, and is deterministic. -/
theorem C4_ranking_stable_descending (prices : Option (List (String × Price)))
    (tokens : List TokenData) :
    List.Perm (getRankedCompatibleTokens prices tokens) (valueTokens prices tokens) ∧
    List.Sorted (fun a b : ValuedToken => b.usdValue ≤ a.usdValue)
      (getRankedCompatibleTokens prices tokens) ∧
    (∀ q : ℚ, (getRankedCompatibleTokens prices tokens).filter
          (fun vt => decide (vt.usdValue = q))
        = (valueTokens prices tokens).filter (fun vt => decide (vt.usdValue = q))) ∧
    (∀ pm, prices = some pm →
      valueTokens prices tokens = tokens.map (fun t => ⟨t, computeUsdValue pm t⟩)) ∧
    (∀ pm t, (∀ p, objLookup pm (jsToLower t.contractAddress) = some p → p.usd ≠ 0 →
        computeUsdValue pm t = ((t.balance : ℚ) / 10 ^ t.decimals) * p.usd) ∧
      (objLookup pm (jsToLower t.contractAddress) = none → computeUsdValue pm t = 0) ∧
      (∀ p, objLookup pm (jsToLower t.contractAddress) = some p → p.usd = 0 →
        computeUsdValue pm t = 0)) ∧
    getRankedCompatibleTokens prices tokens = getRankedCompatibleTokens prices tokens := by
  refine ⟨sortByUsdDesc_perm _, sortByUsdDesc_sorted _, fun q => sortByUsdDesc_filter _ q,
    ?_, ?_, rfl⟩
  · intro pm h
    subst h
    rfl
  · intro pm t
    refine ⟨?_, ?_, ?_⟩
    · intro p hp hne
      simp [computeUsdValue, hp, hne]
    · intro hp
      simp [computeUsdValue, hp]
    · intro p hp he
      simp [computeUsdValue, hp, he]

/-- C4 witness: in the reference scenario TokenA holds 100 units at six
decimals priced at two fiat units, so its assigned fiat value is 200. -/
theorem C4_ranking_stable_descending_witness :
    computeUsdValue cPriceMapA cTokenA
      = ((cTokenA.balance : ℚ) / 10 ^ cTokenA.decimals) * (2 : ℚ) :=
  ((C4_ranking_stable_descending (some cPriceMapA) [cTokenA]).2.2.2.2.1
      cPriceMapA cTokenA).1 ⟨2⟩ (by decide) (by norm_num)

/-- C5: when the scan yields exactly one compatible asset, selection
returns that asset with fiat value zero as a success and issues zero
calls to the price fetcher, skipping the price-fetch and ranking steps
entirely. -/
theorem C5_single_token_fast_path (t : TokenData)
    (priceOracle : List String → Option (List (String × Price))) :
    findHighestAmongCompatible priceOracle [t] = ⟨some (t, 0), []⟩ := rfl

/-- Tokens with no truthy price entry never update the running maximum. -/
theorem selectLoop_no_truthy (prices : List (String × Price))
    (l : List TokenData) (acc : Option TokenData × ℚ)
    (h : ∀ t ∈ l, ∀ p, objLookup prices (jsToLower t.contractAddress) = some p →
        p.usd = 0) :
    selectLoop prices l acc = acc := by
  induction l with
  | nil => rfl
  | cons t rest ih =>
    have hrest := fun t2 ht2 => h t2 (List.mem_cons_of_mem _ ht2)
    match hl : objLookup prices (jsToLower t.contractAddress) with
    | some p =>
      have hz : p.usd = 0 := h t (by simp) p hl
      simp [selectLoop, hl, hz, ih hrest]
    | none => simp [selectLoop, hl, ih hrest]

/-- C10: whenever at least one compatible token exists the single-highest
selection returns a token, and when the price fetch fails wholesale or
yields no truthy price for any token it returns the first compatible
token in discovery order with fiat value zero; it returns an empty result
exactly when no compatible token exists. -/
theorem C10_selection_never_empty
    (priceOracle : List String → Option (List (String × Price)))
    (tokens : List TokenData) :
    (tokens = [] → (findHighestAmongCompatible priceOracle tokens).result = none) ∧
    (tokens ≠ [] →
      ∃ r, (findHighestAmongCompatible priceOracle tokens).result = some r) ∧
    (∀ t0 rest, tokens = t0 :: rest →
      (∀ ps, priceOracle (tokens.map (fun t => t.contractAddress)) = some ps →
        ∀ t ∈ tokens, ∀ p, objLookup ps (jsToLower t.contractAddress) = some p →
          p.usd = 0) →
      (findHighestAmongCompatible priceOracle tokens).result = some (t0, 0)) := by
  refine ⟨?_, ?_, ?_⟩
  · intro h
    subst h
    rfl
  · intro h
    match tokens, h with
    | t0 :: rest, _ =>
      by_cases hre : rest.isEmpty
      · exact ⟨(t0, 0), by simp [findHighestAmongCompatible, hre]⟩
      · match ho : priceOracle (t0.contractAddress :: rest.map (fun t => t.contractAddress)) with
        | none => exact ⟨(t0, 0), by simp [findHighestAmongCompatible, hre, ho]⟩
        | some ps =>
          exact ⟨((selectLoop ps (t0 :: rest) (none, -1)).1.getD t0,
              if -1 < (selectLoop ps (t0 :: rest) (none, -1)).2 then
                (selectLoop ps (t0 :: rest) (none, -1)).2 else 0),
            by simp [findHighestAmongCompatible, hre, ho]⟩
  · intro t0 rest heq hdeg
    subst heq
    by_cases hre : rest.isEmpty
    · simp [findHighestAmongCompatible, hre]
    · match ho : priceOracle (t0.contractAddress :: rest.map (fun t => t.contractAddress)) with
      | none => simp [findHighestAmongCompatible, hre, ho]
      | some ps =>
        have hz := selectLoop_no_truthy ps (t0 :: rest) (none, -1) (hdeg ps ho)
        simp [findHighestAmongCompatible, hre, ho, hz]

/-- C10 witness: with two compatible tokens and a wholesale price-fetch
failure, selection still returns the first token with value zero. -/
theorem C10_selection_never_empty_witness :
    (findHighestAmongCompatible (fun _ => none) [cToken, cToken2]).result
      = some (cToken, 0) :=
  (C10_selection_never_empty (fun _ => none) [cToken, cToken2]).2.2 cToken
    [cToken2] rfl (fun _ hps => nomatch hps)

/-- A successful single-identifier fetch comes from a successful non-empty
oracle response. -/
theorem fetchTokenPricesSingle_eq_some (assetPlatform : Option String)
    (oracle : String → Option (List (String × Price))) (id : String)
    (l : List (String × Price))
    (hs : fetchTokenPricesSingle assetPlatform oracle id = some l) :
    oracle id = some l ∧ l ≠ [] := by
  unfold fetchTokenPricesSingle at hs
  split at hs
  · cases hs
  · split at hs
    · cases hs
    · rename_i l0 ho
      split at hs
      · cases hs
      · rename_i hne
        cases hs
        exact ⟨ho, by simpa using hne⟩

/-- A chunk step for an identifier with a different normalized key leaves
the lookup of that key unchanged. -/
theorem chunksStep_lookup_ne (assetPlatform : Option String)
    (oracle : String → Option (List (String × Price)))
    (acc : List (String × Price)) (id k : String)
    (hk : normalizePriceKey id ≠ k)
    (hkeys : ∀ l, oracle id = some l → ∀ kv ∈ l, kv.1 = normalizePriceKey id) :
    objLookup (chunksStep assetPlatform oracle acc id) k = objLookup acc k := by
  unfold chunksStep
  match hs : fetchTokenPricesSingle assetPlatform oracle id with
  | none => exact objLookup_objInsert_ne _ _ _ _ (Ne.symm hk)
  | some l =>
    obtain ⟨ho, _⟩ := fetchTokenPricesSingle_eq_some _ _ _ _ hs
    exact objLookup_foldl_objInsert_ne l Prod.fst Prod.snd acc k
      (fun kv hkv => (hkeys l ho kv hkv).symm ▸ hk)

/-- Chunk steps for identifiers whose normalized keys all differ from k
leave the lookup of k unchanged. -/
theorem chunks_foldl_lookup_ne (assetPlatform : Option String)
    (oracle : String → Option (List (String × Price))) (ids : List String)
    (acc : List (String × Price)) (k : String)
    (h : ∀ id ∈ ids, normalizePriceKey id ≠ k)
    (hkeys : ∀ id ∈ ids, ∀ l, oracle id = some l →
        ∀ kv ∈ l, kv.1 = normalizePriceKey id) :
    objLookup (ids.foldl (chunksStep assetPlatform oracle) acc) k
      = objLookup acc k := by
  induction ids generalizing acc with
  | nil => rfl
  | cons id rest ih =>
    rw [List.foldl_cons,
      ih _ (fun i hi => h i (List.mem_cons_of_mem _ hi))
        (fun i hi => hkeys i (List.mem_cons_of_mem _ hi)),
      chunksStep_lookup_ne _ _ _ _ _ (h id (by simp)) (hkeys id (by simp))]

/-- Folding inserts that all carry the same key yields that key bound to
a value of one of the entries. -/
theorem objLookup_foldl_objInsert_const {α : Type} (l : List (String × α))
    (init : List (String × α)) (k : String) (hne : l ≠ [])
    (hk : ∀ kv ∈ l, kv.1 = k) :
    ∃ v, objLookup (l.foldl (fun acc kv => objInsert acc kv.1 kv.2) init) k
        = some v ∧ (k, v) ∈ l := by
  induction l generalizing init with
  | nil => cases hne rfl
  | cons kv rest ih =>
    obtain ⟨k1, v1⟩ := kv
    have hk1 : k1 = k := hk (k1, v1) (by simp)
    subst hk1
    by_cases hr : rest = []
    · subst hr
      exact ⟨v1, by rw [List.foldl_cons, List.foldl_nil, objLookup_objInsert_self],
        by simp⟩
    · obtain ⟨v, hv, hm⟩ := ih (objInsert init k1 v1) hr
        (fun kv2 h2 => hk kv2 (List.mem_cons_of_mem _ h2))
      exact ⟨v, by rw [List.foldl_cons]; exact hv, List.mem_cons_of_mem _ hm⟩

/-- A no-fallback chunk step for an identifier with a different normalized
key leaves the lookup of that key unchanged. -/
theorem chunksStepNoFallback_lookup_ne (assetPlatform : Option String)
    (oracle : String → Option (List (String × Price)))
    (acc : List (String × Price)) (id k : String)
    (hk : normalizePriceKey id ≠ k)
    (hkeys : ∀ l, oracle id = some l → ∀ kv ∈ l, kv.1 = normalizePriceKey id) :
    objLookup (chunksStepNoFallback assetPlatform oracle acc id) k
      = objLookup acc k := by
  unfold chunksStepNoFallback
  match hs : fetchTokenPricesSingle assetPlatform oracle id with
  | none => rfl
  | some l =>
    obtain ⟨ho, _⟩ := fetchTokenPricesSingle_eq_some _ _ _ _ hs
    exact objLookup_foldl_objInsert_ne l Prod.fst Prod.snd acc k
      (fun kv hkv => (hkeys l ho kv hkv).symm ▸ hk)

/-- No-fallback chunk steps for identifiers whose normalized keys all
differ from k leave the lookup of k unchanged. -/
theorem chunksNoFallback_foldl_lookup_ne (assetPlatform : Option String)
    (oracle : String → Option (List (String × Price))) (ids : List String)
    (acc : List (String × Price)) (k : String)
    (h : ∀ id ∈ ids, normalizePriceKey id ≠ k)
    (hkeys : ∀ id ∈ ids, ∀ l, oracle id = some l →
        ∀ kv ∈ l, kv.1 = normalizePriceKey id) :
    objLookup (ids.foldl (chunksStepNoFallback assetPlatform oracle) acc) k
      = objLookup acc k := by
  induction ids generalizing acc with
  | nil => rfl
  | cons id rest ih =>
    rw [List.foldl_cons,
      ih _ (fun i hi => h i (List.mem_cons_of_mem _ hi))
        (fun i hi => hkeys i (List.mem_cons_of_mem _ hi)),
      chunksStepNoFallback_lookup_ne _ _ _ _ _ (h id (by simp)) (hkeys id (by simp))]

/-- One chunk step records its own identifier: the normalized key is bound
to the fetched price on success and to the zero price on failure. -/
theorem chunksStep_lookup_self (assetPlatform : Option String)
    (oracle : String → Option (List (String × Price)))
    (acc : List (String × Price)) (id : String)
    (hkeys : ∀ l, oracle id = some l → ∀ kv ∈ l, kv.1 = normalizePriceKey id) :
    ∃ p, objLookup (chunksStep assetPlatform oracle acc id)
          (normalizePriceKey id) = some p ∧
      (fetchTokenPricesSingle assetPlatform oracle id = none → p = ⟨0⟩) ∧
      (∀ l, fetchTokenPricesSingle assetPlatform oracle id = some l →
        (normalizePriceKey id, p) ∈ l) := by
  unfold chunksStep
  match hs : fetchTokenPricesSingle assetPlatform oracle id with
  | none =>
    exact ⟨⟨0⟩, objLookup_objInsert_self _ _ _, fun _ => rfl,
      fun l hl => nomatch hl⟩
  | some l =>
    obtain ⟨ho, hne⟩ := fetchTokenPricesSingle_eq_some _ _ _ _ hs
    obtain ⟨v, hv, hm⟩ := objLookup_foldl_objInsert_const l acc
      (normalizePriceKey id) hne (hkeys l ho)
    refine ⟨v, hv, ⟨?_, ?_⟩⟩
    · intro he
      cases he
    · intro l2 hl2
      cases hl2
      exact hm

/-- C3 counterexample: in the chunked fetch variant without the fallback,
the requested identifier ethereum, whose individual fetch fails, is left
absent from the returned mapping, while the other identifier is still
fetched. -/
theorem C3_counterexample :
    "ethereum" ∈ ["0xAb", "ethereum"] ∧
    c3Oracle "ethereum" = none ∧
    objLookup (fetchTokenPricesInChunksNoFallback (some "ethereum") c3Oracle
        ["0xAb", "ethereum"]) (normalizePriceKey "ethereum") = none ∧
    objLookup (fetchTokenPricesInChunksNoFallback (some "ethereum") c3Oracle
        ["0xAb", "ethereum"]) (normalizePriceKey "0xAb") = some ⟨2⟩ := by
  refine ⟨by decide, rfl, by decide, by decide⟩

/-- C3 amended: under the oracle interface that keys each
single-identifier response by the normalized identifier, the chunked
fetch variant with the per-identifier fallback binds every requested
identifier in the returned mapping to a fetched price on success and to
the explicit zero price when its individual fetch fails or returns no
data; the variant without the fallback skips a failed or empty chunk, so
that identifier is left absent from its returned mapping, while a
successful identifier still receives its fetched price, so in both
variants one failure never aborts the fetches of the others. -/
theorem C3_chunked_zero_price_fallback (assetPlatform : Option String)
    (oracle : String → Option (List (String × Price))) (ids : List String)
    (hkeys : ∀ id ∈ ids, ∀ l, oracle id = some l →
        ∀ kv ∈ l, kv.1 = normalizePriceKey id)
    (hnodup : (ids.map normalizePriceKey).Nodup) :
    ∀ id ∈ ids,
      (∃ p, objLookup (fetchTokenPricesInChunks assetPlatform oracle ids)
            (normalizePriceKey id) = some p ∧
        (fetchTokenPricesSingle assetPlatform oracle id = none → p = ⟨0⟩) ∧
        (∀ l, fetchTokenPricesSingle assetPlatform oracle id = some l →
          (normalizePriceKey id, p) ∈ l)) ∧
      (fetchTokenPricesSingle assetPlatform oracle id = none →
        objLookup (fetchTokenPricesInChunksNoFallback assetPlatform oracle ids)
            (normalizePriceKey id) = none) ∧
      (∀ l, fetchTokenPricesSingle assetPlatform oracle id = some l →
        ∃ p, objLookup (fetchTokenPricesInChunksNoFallback assetPlatform oracle ids)
              (normalizePriceKey id) = some p ∧ (normalizePriceKey id, p) ∈ l) := by
  intro id hid
  obtain ⟨s, t, heq⟩ := List.append_of_mem hid
  subst heq
  have hnd := hnodup
  rw [List.map_append, List.map_cons, List.nodup_append] at hnd
  have hnotin_t : normalizePriceKey id ∉ t.map normalizePriceKey :=
    (List.nodup_cons.mp hnd.2.1).1
  have hts : ∀ i ∈ t, normalizePriceKey i ≠ normalizePriceKey id :=
    fun i hi he => hnotin_t (by rw [← he]; exact List.mem_map_of_mem _ hi)
  have hss : ∀ i ∈ s, normalizePriceKey i ≠ normalizePriceKey id :=
    fun i hi he => hnd.2.2 (List.mem_map_of_mem _ hi)
      (by rw [he]; exact List.mem_cons_self _ _)
  have hkeys_t : ∀ i ∈ t, ∀ l, oracle i = some l →
      ∀ kv ∈ l, kv.1 = normalizePriceKey i :=
    fun i hi => hkeys i (by simp [hi])
  have hkeys_s : ∀ i ∈ s, ∀ l, oracle i = some l →
      ∀ kv ∈ l, kv.1 = normalizePriceKey i :=
    fun i hi => hkeys i (by simp [hi])
  refine ⟨?_, ?_, ?_⟩
  · obtain ⟨p, hp, h0, hsome⟩ := chunksStep_lookup_self assetPlatform oracle
      ((s.foldl (chunksStep assetPlatform oracle)) []) id (hkeys id (by simp))
    refine ⟨p, ?_, h0, hsome⟩
    unfold fetchTokenPricesInChunks
    rw [List.foldl_append, List.foldl_cons,
      chunks_foldl_lookup_ne assetPlatform oracle t _ _ hts hkeys_t]
    exact hp
  · intro hsn
    unfold fetchTokenPricesInChunksNoFallback
    rw [List.foldl_append, List.foldl_cons,
      chunksNoFallback_foldl_lookup_ne assetPlatform oracle t _ _ hts hkeys_t]
    have hstep : chunksStepNoFallback assetPlatform oracle
        (s.foldl (chunksStepNoFallback assetPlatform oracle) []) id
        = s.foldl (chunksStepNoFallback assetPlatform oracle) [] := by
      unfold chunksStepNoFallback
      rw [hsn]
    rw [hstep,
      chunksNoFallback_foldl_lookup_ne assetPlatform oracle s _ _ hss hkeys_s]
    rfl
  · intro l hsl
    obtain ⟨ho, hne⟩ := fetchTokenPricesSingle_eq_some _ _ _ _ hsl
    obtain ⟨v, hv, hm⟩ := objLookup_foldl_objInsert_const l
      (s.foldl (chunksStepNoFallback assetPlatform oracle) [])
      (normalizePriceKey id) hne (hkeys id (by simp) l ho)
    refine ⟨v, ?_, hm⟩
    unfold fetchTokenPricesInChunksNoFallback
    rw [List.foldl_append, List.foldl_cons,
      chunksNoFallback_foldl_lookup_ne assetPlatform oracle t _ _ hts hkeys_t]
    have hstep : chunksStepNoFallback assetPlatform oracle
        (s.foldl (chunksStepNoFallback assetPlatform oracle) []) id
        = l.foldl (fun acc kv => objInsert acc kv.1 kv.2)
            (s.foldl (chunksStepNoFallback assetPlatform oracle) []) := by
      unfold chunksStepNoFallback
      rw [hsl]
    rw [hstep]
    exact hv

/-- C3 witness: a native identifier with a failing fetch receives the
zero-price fallback in the fallback variant and is left absent in the
no-fallback variant. -/
theorem C3_chunked_zero_price_fallback_witness :
    (∃ p, objLookup (fetchTokenPricesInChunks (some "ethereum") c3Oracle
          ["0xAb", "ethereum"]) (normalizePriceKey "ethereum") = some p ∧
      (fetchTokenPricesSingle (some "ethereum") c3Oracle "ethereum" = none →
        p = ⟨0⟩) ∧
      (∀ l, fetchTokenPricesSingle (some "ethereum") c3Oracle "ethereum" = some l →
        (normalizePriceKey "ethereum", p) ∈ l)) ∧
    objLookup (fetchTokenPricesInChunksNoFallback (some "ethereum") c3Oracle
        ["0xAb", "ethereum"]) (normalizePriceKey "ethereum") = none := by
  have h := C3_chunked_zero_price_fallback (some "ethereum") c3Oracle
    ["0xAb", "ethereum"] ?_ (by decide) "ethereum" (by decide)
  · exact ⟨h.1, h.2.1 rfl⟩
  · intro id hid l hl kv hkv
    rcases List.mem_cons.mp hid with h1 | h1
    · subst h1
      rw [show c3Oracle "0xAb" = some [("0xab", (⟨2⟩ : Price))] from rfl] at hl
      cases hl
      have hkv2 : kv = ("0xab", (⟨2⟩ : Price)) := by simpa using hkv
      subst hkv2
      decide
    · rcases List.mem_cons.mp h1 with h2 | h2
      · subst h2
        rw [show c3Oracle "ethereum" = none from rfl] at hl
        cases hl
      · cases h2

/-- The cached-fresh component of the partition is the in-order list of
fresh cache prices keyed by the lower-cased addresses. -/
theorem partitionCachedAddresses_fst (cache : PriceCache) (now : Nat)
    (addrs : List String) :
    (partitionCachedAddresses cache now addrs).1
      = addrs.filterMap (fun a => (freshPrice cache now (jsToLower a)).map
          (fun p => (jsToLower a, p))) := by
  induction addrs with
  | nil => rfl
  | cons a rest ih =>
    simp only [partitionCachedAddresses, List.filterMap_cons]
    match hl : objLookup cache (jsToLower a) with
    | some c =>
      by_cases ht : now - c.timestamp < CACHE_DURATION_MS
      · simp [freshPrice, hl, ht, ih]
      · simp [freshPrice, hl, ht, ih]
    | none => simp [freshPrice, hl, ih]

/-- The fetch component of the partition is the in-order list of queried
addresses without a fresh cache entry. -/
theorem partitionCachedAddresses_snd (cache : PriceCache) (now : Nat)
    (addrs : List String) :
    (partitionCachedAddresses cache now addrs).2
      = addrs.filter (fun a => (freshPrice cache now (jsToLower a)).isNone) := by
  induction addrs with
  | nil => rfl
  | cons a rest ih =>
    simp only [partitionCachedAddresses, List.filter_cons]
    match hl : objLookup cache (jsToLower a) with
    | some c =>
      by_cases ht : now - c.timestamp < CACHE_DURATION_MS
      · simp [freshPrice, hl, ht, ih]
      · simp [freshPrice, hl, ht, ih]
    | none => simp [freshPrice, hl, ih]

/-- Looking up a fresh key in the cached-fresh component yields its fresh
price. -/
theorem objLookup_filterMap_fresh (cache : PriceCache) (now : Nat)
    (addrs : List String) (k : String) (p : Price)
    (hfp : freshPrice cache now k = some p)
    (hex : ∃ a ∈ addrs, jsToLower a = k) :
    objLookup (addrs.filterMap (fun a => (freshPrice cache now (jsToLower a)).map
        (fun q => (jsToLower a, q)))) k = some p := by
  induction addrs with
  | nil =>
    obtain ⟨a, ha, _⟩ := hex
    cases ha
  | cons b rest ih =>
    obtain ⟨a, ha, hak⟩ := hex
    rw [List.filterMap_cons]
    match hfb : freshPrice cache now (jsToLower b) with
    | none =>
      rcases List.mem_cons.mp ha with h1 | h1
      · subst h1
        rw [hak, hfp] at hfb
        cases hfb
      · exact ih ⟨a, h1, hak⟩
    | some q =>
      by_cases hbk : jsToLower b = k
      · rw [hbk, hfp] at hfb
        cases hfb
        simp [objLookup, hbk]
      · rcases List.mem_cons.mp ha with h1 | h1
        · subst h1
          exact absurd hak hbk
        · simpa [objLookup, hbk] using ih ⟨a, h1, hak⟩

/-- Entries produced by a fold of inserts come from the initial object or
carry one of the inserted keys. -/
theorem mem_foldl_objInsert {α σ : Type} (l : List σ) (g : σ → String)
    (hf : σ → α) (init : List (String × α)) (kv : String × α)
    (h : kv ∈ l.foldl (fun acc s => objInsert acc (g s) (hf s)) init) :
    kv ∈ init ∨ ∃ s ∈ l, kv.1 = g s := by
  induction l generalizing init with
  | nil => exact Or.inl h
  | cons s rest ih =>
    rw [List.foldl_cons] at h
    rcases ih _ h with h2 | h2
    · rcases mem_objInsert _ _ _ _ h2 with h3 | h3
      · exact Or.inl h3
      · exact Or.inr ⟨s, by simp, h3⟩
    · obtain ⟨s2, hs2, he⟩ := h2
      exact Or.inr ⟨s2, List.mem_cons_of_mem _ hs2, he⟩

/-- The first component of a paired fetch result is one of the fetched
addresses. -/
theorem mem_filterMap_oracle_fst {β : Type} (oracle : String → Option β)
    (atf : List String) (s : String × β)
    (h : s ∈ atf.filterMap (fun address => (oracle address).map
        (fun d => (address, d)))) : s.1 ∈ atf := by
  rcases List.mem_filterMap.mp h with ⟨a, ha, he⟩
  match ho : oracle a with
  | none => rw [ho] at he; cases he
  | some d =>
    rw [ho] at he
    cases he
    exact ha

/-- The addresses of the paired fetch results form a sublist of the
fetched addresses. -/
theorem filterMap_oracle_fst_sublist {β : Type} (oracle : String → Option β)
    (atf : List String) :
    ((atf.filterMap (fun address => (oracle address).map
        (fun d => (address, d)))).map Prod.fst).Sublist atf := by
  induction atf with
  | nil => simp
  | cons a rest ih =>
    rw [List.filterMap_cons]
    match oracle a with
    | none => exact ih.cons a
    | some d => simpa using ih.cons₂ a

/-- Inserting an absent key appends the entry. -/
theorem objInsert_append {α : Type} (l : List (String × α)) (k : String) (v : α)
    (h : ∀ kv ∈ l, kv.1 ≠ k) : objInsert l k v = l ++ [(k, v)] := by
  induction l with
  | nil => rfl
  | cons kv rest ih =>
    have h1 : kv.1 ≠ k := h kv (by simp)
    simp [objInsert, h1, ih (fun kv2 h2 => h kv2 (List.mem_cons_of_mem _ h2))]

/-- A fold of inserts with pairwise distinct keys, disjoint from the
initial object, appends the entries in order. -/
theorem foldl_objInsert_eq_append {α σ : Type} (l : List σ) (g : σ → String)
    (hf : σ → α) (init : List (String × α))
    (hdisj : ∀ s ∈ l, ∀ kv ∈ init, kv.1 ≠ g s)
    (hnd : (l.map g).Nodup) :
    l.foldl (fun acc s => objInsert acc (g s) (hf s)) init
      = init ++ l.map (fun s => (g s, hf s)) := by
  induction l generalizing init with
  | nil => simp
  | cons s rest ih =>
    rw [List.map_cons, List.nodup_cons] at hnd
    rw [List.foldl_cons, objInsert_append _ _ _ (fun kv hkv => hdisj s (by simp) kv hkv)]
    rw [ih _ ?_ hnd.2]
    · simp
    · intro s2 hs2 kv hkv
      rcases List.mem_append.mp hkv with h1 | h1
      · exact hdisj s2 (List.mem_cons_of_mem _ hs2) kv h1
      · have h2 : kv = (g s, hf s) := by simpa using h1
        subst h2
        intro he
        have he2 : g s = g s2 := he
        exact hnd.1 (by rw [he2]; exact List.mem_map_of_mem g hs2)

/-- The fetched list of fetchTokenPrices is exactly the stale-or-missing
component of the partition. -/
theorem fetchTokenPrices_fetched (pf : String) (cache : PriceCache) (now : Nat)
    (oracle : String → Option (Option Price)) (addrs : List String) :
    (fetchTokenPrices (some pf) cache now oracle addrs).fetched
      = (partitionCachedAddresses cache now addrs).2 := by
  by_cases hemp : (partitionCachedAddresses cache now addrs).2.isEmpty
  · simp only [fetchTokenPrices, hemp, if_pos]
    exact (List.isEmpty_iff.mp hemp).symm
  · simp [fetchTokenPrices, hemp]

/-- A fresh queried key is served from the cached-fresh component of the
returned mapping. -/
theorem fetchTokenPrices_prices_of_fresh (pf : String) (cache : PriceCache)
    (now : Nat) (oracle : String → Option (Option Price)) (addrs : List String)
    (k : String) (p : Price)
    (hfp : freshPrice cache now k = some p)
    (hex : ∃ a ∈ addrs, jsToLower a = k)
    (hnf : ∀ b ∈ (partitionCachedAddresses cache now addrs).2, jsToLower b ≠ k) :
    objLookup (fetchTokenPrices (some pf) cache now oracle addrs).prices k
      = some p := by
  have hpc1 : objLookup (partitionCachedAddresses cache now addrs).1 k = some p := by
    rw [partitionCachedAddresses_fst]
    exact objLookup_filterMap_fresh cache now addrs k p hfp hex
  by_cases hemp : (partitionCachedAddresses cache now addrs).2.isEmpty
  · simpa [fetchTokenPrices, hemp] using hpc1
  · simp only [fetchTokenPrices, hemp, if_neg, not_false_iff, Bool.false_eq_true,
      ite_false]
    rw [objLookup_objMerge_ne]
    · exact hpc1
    · intro kv hkv
      rcases mem_foldl_objInsert _ _ _ _ _ hkv with h1 | h1
      · cases h1
      · obtain ⟨s2, hs2, he2⟩ := h1
        rw [he2]
        exact hnf s2.1 (mem_filterMap_oracle_fst oracle _ s2 hs2)

/-- A stale queried address with a completed fetch has its cache entry
overwritten with the fetched price and the current timestamp. -/
theorem fetchTokenPrices_cache_update (pf : String) (cache : PriceCache)
    (now : Nat) (oracle : String → Option (Option Price)) (addrs : List String)
    (a : String) (d : Option Price)
    (hmem : a ∈ (partitionCachedAddresses cache now addrs).2)
    (hd : oracle a = some d)
    (hnodup : ((partitionCachedAddresses cache now addrs).2.map jsToLower).Nodup) :
    objLookup (fetchTokenPrices (some pf) cache now oracle addrs).cache
        (jsToLower a) = some ⟨d.getD ⟨0⟩, now⟩ := by
  have hne : (partitionCachedAddresses cache now addrs).2 ≠ [] :=
    List.ne_nil_of_mem hmem
  have hemp : ¬((partitionCachedAddresses cache now addrs).2.isEmpty = true) := by
    simpa [List.isEmpty_iff] using hne
  have hfrnodup : (((partitionCachedAddresses cache now addrs).2.filterMap
      (fun address => (oracle address).map (fun d2 => (address, d2)))).map
        (fun s => jsToLower s.1)).Nodup := by
    have hsub := (filterMap_oracle_fst_sublist oracle
        (partitionCachedAddresses cache now addrs).2).map jsToLower
    exact hnodup.sublist (by simpa [List.map_map, Function.comp_def] using hsub)
  have hmemfr : ((a, d) : String × Option Price) ∈
      (partitionCachedAddresses cache now addrs).2.filterMap
        (fun address => (oracle address).map (fun d2 => (address, d2))) :=
    List.mem_filterMap.mpr ⟨a, hmem, by rw [hd]; rfl⟩
  simp only [fetchTokenPrices, hemp, if_neg, not_false_iff, Bool.false_eq_true,
    ite_false]
  have hnp := foldl_objInsert_eq_append
    ((partitionCachedAddresses cache now addrs).2.filterMap
      (fun address => (oracle address).map (fun d2 => (address, d2))))
    (fun ad => jsToLower ad.1) (fun ad => ad.2.getD ⟨0⟩) []
    (by intro s hs kv hkv; cases hkv) hfrnodup
  rw [hnp, List.nil_append, List.foldl_map]
  simp only [jsToLower_idem]
  exact objLookup_foldl_objInsert_unique _ (fun s => jsToLower s.1)
    (fun s => ⟨s.2.getD ⟨0⟩, now⟩) cache ((a, d) : String × Option Price)
    hmemfr hfrnodup

/-- C1: for every asset id queried through the price cache, a cache entry
for its lower-cased id younger than the five-minute TTL is served without
a network fetch for that id, while a stale or absent entry causes a fetch
for that id and, on a completed fetch, the cache entry for the lower-cased
id is overwritten with the new price and the current timestamp. -/
theorem C1_price_cache_ttl (pf : String) (cache : PriceCache) (now : Nat)
    (oracle : String → Option (Option Price)) (tokenAddresses : List String)
    (a : String) (hmem : a ∈ tokenAddresses)
    (hnodup : (tokenAddresses.map jsToLower).Nodup) :
    (∀ c, objLookup cache (jsToLower a) = some c →
      now - c.timestamp < CACHE_DURATION_MS →
      a ∉ (fetchTokenPrices (some pf) cache now oracle tokenAddresses).fetched ∧
      objLookup (fetchTokenPrices (some pf) cache now oracle tokenAddresses).prices
          (jsToLower a) = some c.price) ∧
    ((∀ c, objLookup cache (jsToLower a) = some c →
        CACHE_DURATION_MS ≤ now - c.timestamp) →
      a ∈ (fetchTokenPrices (some pf) cache now oracle tokenAddresses).fetched ∧
      ∀ d, oracle a = some d →
        objLookup (fetchTokenPrices (some pf) cache now oracle tokenAddresses).cache
            (jsToLower a) = some ⟨d.getD ⟨0⟩, now⟩) := by
  constructor
  · intro c hc ht
    have hfp : freshPrice cache now (jsToLower a) = some c.price := by
      simp [freshPrice, hc, ht]
    have hnf : ∀ b ∈ (partitionCachedAddresses cache now tokenAddresses).2,
        jsToLower b ≠ jsToLower a := by
      intro b hb he
      rw [partitionCachedAddresses_snd] at hb
      have hbn := (List.mem_filter.mp hb).2
      rw [he, hfp] at hbn
      cases hbn
    constructor
    · rw [fetchTokenPrices_fetched]
      intro hain
      exact hnf a hain rfl
    · exact fetchTokenPrices_prices_of_fresh pf cache now oracle tokenAddresses
        (jsToLower a) c.price hfp ⟨a, hmem, rfl⟩ hnf
  · intro hstale
    have hfp : freshPrice cache now (jsToLower a) = none := by
      unfold freshPrice
      match hlk : objLookup cache (jsToLower a) with
      | none => rfl
      | some c =>
        have hle := hstale c hlk
        show (if now - c.timestamp < CACHE_DURATION_MS then some c.price else none)
          = none
        rw [if_neg (not_lt.mpr hle)]
    have hain : a ∈ (partitionCachedAddresses cache now tokenAddresses).2 := by
      rw [partitionCachedAddresses_snd]
      exact List.mem_filter.mpr ⟨hmem, by simp [hfp]⟩
    have hatfnodup :
        ((partitionCachedAddresses cache now tokenAddresses).2.map jsToLower).Nodup := by
      have hsub : (partitionCachedAddresses cache now tokenAddresses).2.Sublist
          tokenAddresses := by
        rw [partitionCachedAddresses_snd]
        exact List.filter_sublist _
      exact hnodup.sublist (hsub.map jsToLower)
    constructor
    · rw [fetchTokenPrices_fetched]
      exact hain
    · intro d hd
      exact fetchTokenPrices_cache_update pf cache now oracle tokenAddresses a d
        hain hd hatfnodup

/-- C1 witness: a concrete query where the first address has a fresh cache
entry, which is served without that address being fetched. -/
theorem C1_price_cache_ttl_witness :
    "0xAA" ∉ (fetchTokenPrices (some "ethereum") c1Cache 800000 c1Oracle
        ["0xAA", "0xBB"]).fetched ∧
    objLookup (fetchTokenPrices (some "ethereum") c1Cache 800000 c1Oracle
        ["0xAA", "0xBB"]).prices (jsToLower "0xAA") = some ⟨5⟩ :=
  (C1_price_cache_ttl "ethereum" c1Cache 800000 c1Oracle ["0xAA", "0xBB"]
      "0xAA" (by decide) (by decide)).1 ⟨⟨5⟩, 700000⟩ (by decide) (by decide)

end SpiderWeb
